import Mathlib

/-!
Shallow embedding of the document-chunk-vector store implemented in
`mcp_server.py` (RAG MCP server), together with theorems checking the
natural-language specification's claims against it.

Python strings are modelled as `List Char`, Python ints as `Int` (slice
positions may be negative in Python, so slicing is modelled over `Int`
with Python's clamping semantics).  Python dicts (insertion ordered) are
modelled as association lists with Python's update-in-place / append-new
semantics.  Wall-clock timestamps (`created_at` fields) and raw file-system
concerns (byte sizes, `Path.stem` parsing) are elided: no claim mentions
them.  The PDF text extractor and the sentence-transformer embedding model
are external collaborators; they enter the model as parameters
(`text_content`, `embed`), with `embed` returning `Option` so that a raised
exception in the embedding call can be modelled.
-/

namespace MCP

/-- Python's whitespace predicate used by `str.strip()` on `str`
(CPython's `Py_UNICODE_ISSPACE` table): the ASCII whitespace characters
(tab, newline, vertical tab, form feed, carriage return, space), the
separators U+001C-U+001F, the next-line character U+0085, and the Unicode
space characters: no-break space U+00A0, Ogham space mark U+1680, the
fixed-width space family U+2000-U+200A, line separator U+2028, paragraph
separator U+2029, narrow no-break space U+202F, medium mathematical space
U+205F, and ideographic space U+3000. -/
def isPySpace (c : Char) : Bool :=
  c == ' ' || c == '\t' || c == '\n' || c == '\r' || c == '\x0b' || c == '\x0c' ||
  (0x1c ≤ c.toNat && c.toNat ≤ 0x1f) || c.toNat == 0x85 || c.toNat == 0xa0 ||
  c.toNat == 0x1680 || (0x2000 ≤ c.toNat && c.toNat ≤ 0x200a) ||
  c.toNat == 0x2028 || c.toNat == 0x2029 || c.toNat == 0x202f ||
  c.toNat == 0x205f || c.toNat == 0x3000

/-- Model of Python `str.strip()`: drop whitespace from both ends. -/
def pyStrip (s : List Char) : List Char :=
  ((s.dropWhile isPySpace).reverse.dropWhile isPySpace).reverse

/-- Clamp a Python slice endpoint to `[0, n]` (negative indices count from
the end, as in Python). -/
def sliceIdx (n : Nat) (i : Int) : Nat :=
  if i < 0 then (i + n).toNat else min i.toNat n

/-- Model of Python slicing `s[a:b]` for integer endpoints. -/
def pySlice (s : List Char) (a b : Int) : List Char :=
  (s.drop (sliceIdx s.length a)).take (sliceIdx s.length b - sliceIdx s.length a)

/-- Model of Python `s.rfind(c)`: index of the last occurrence of `c`
in `s`, or `-1` if absent. -/
def rfindChar (s : List Char) (c : Char) : Int :=
  match s.reverse.findIdx? (fun x => x == c) with
  | some j => ((s.length - 1 - j : Nat) : Int)
  | none => -1

/-- One iteration body of the scanning loop of `_create_text_chunks`
(mcp_server.py lines 336-348): compute the window `text[start:start+cs]`,
and, when the window ends before the end of the text, try to cut at the
last period or newline when that break point lies past `start + cs // 2`.
Returns the chunk (before stripping) and the value of `end` after the body.
Note the source compares `break_point` (an index *relative to the window*,
as returned by `str.rfind`) against the *absolute* position
`start + chunk_size // 2` and slices `text[start:break_point + 1]`; the
model reproduces this faithfully. -/
def chunkStep (text : List Char) (cs : Nat) (start : Int) : List Char × Int :=
  let e := start + (cs : Int)
  let chunk := pySlice text start e
  if e < (text.length : Int) then
    let breakPoint := max (rfindChar chunk '.') (rfindChar chunk '\n')
    if breakPoint > start + ((cs / 2 : Nat) : Int) then
      (pySlice text start (breakPoint + 1), breakPoint + 1)
    else (chunk, e)
  else (chunk, e)

/-- The `while start < len(text)` loop of `_create_text_chunks`, with an
explicit fuel parameter: `none` means the fuel was exhausted while the
loop condition still held (the Python loop would still be running).
Each iteration appends `chunk.strip()` and sets `start = end - overlap`;
the source's trailing `if start >= len(text): break` coincides with the
loop condition and needs no separate model. -/
def chunkLoop (text : List Char) (cs ov : Nat) :
    Nat → Int → List (List Char) → Option (List (List Char))
  | 0, start, acc =>
    if start < (text.length : Int) then none else some acc
  | fuel + 1, start, acc =>
    if start < (text.length : Int) then
      chunkLoop text cs ov fuel ((chunkStep text cs start).2 - (ov : Int))
        (acc ++ [pyStrip (chunkStep text cs start).1])
    else some acc

/-- Model of `_create_text_chunks(text, chunk_size, overlap)` (mcp_server.py
lines 331-356), fuelled.  The final list comprehension keeps only chunks
that are non-empty after stripping. -/
def create_text_chunks (text : List Char) (cs ov fuel : Nat) :
    Option (List (List Char)) :=
  (chunkLoop text cs ov fuel 0 []).map
    (fun l => l.filter (fun c => !(pyStrip c).isEmpty))

/-- `_create_text_chunks` at its default parameters `chunk_size = 1000`,
`overlap = 200`, as called by `upload_pdf`.  Fuel `text.length + 1`
suffices for these parameters (`chunkLoop_default_total` below). -/
def createTextChunksDefault (text : List Char) : Option (List (List Char)) :=
  create_text_chunks text 1000 200 (text.length + 1)

/-! ### Python dict model (insertion-ordered association lists) -/

/-- Model of Python `d.get(k)` / `d[k]`: first value stored under `k`. -/
def dictGet {κ α : Type} [DecidableEq κ] : List (κ × α) → κ → Option α
  | [], _ => none
  | p :: r, k => if p.1 = k then some p.2 else dictGet r k

/-- Model of Python `d[k] = v`: update in place if the key is present
(dicts keep the original insertion position on update), else append. -/
def dictSet {κ α : Type} [DecidableEq κ] (l : List (κ × α)) (k : κ) (v : α) :
    List (κ × α) :=
  if l.any (fun p => decide (p.1 = k)) then
    l.map (fun p => if p.1 = k then (k, v) else p)
  else l ++ [(k, v)]

/-- Model of Python `del d[k]` (guarded by `if k in d`, so absent keys are
a no-op), and of `Path.unlink()` for the id-keyed file directories. -/
def dictErase {κ α : Type} [DecidableEq κ] (l : List (κ × α)) (k : κ) :
    List (κ × α) :=
  l.filter (fun p => decide (p.1 ≠ k))

/-- Keys of an association list, in insertion order. -/
def dKeys {κ α : Type} (l : List (κ × α)) : List κ := l.map Prod.fst

/-! ### Data model of the store (mcp_server.py `RAGSystem` state)

State observable by the operations: the `metadata` dict (documents map,
chunks map, `next_chunk_id`), the in-memory FAISS index, and the three
on-disk file areas keyed by id (chunk texts, chunk embeddings, document
texts).  Embedding vectors are fixed-dimension numeric vectors; they are
modelled as `List Int` with the exact inner product, which preserves the
ordering structure the claims are about. -/

abbrev Vec := List Int

/-- A chunk metadata record (mcp_server.py lines 122-127); the
`created_at` wall-clock timestamp is elided. -/
structure ChunkMeta where
  document_id : String
  chunk_index : Nat
  text_preview : List Char
deriving DecidableEq

/-- A document metadata record (mcp_server.py lines 132-138); `created_at`
elided. -/
structure DocMeta where
  name : String
  original_path : String
  chunk_ids : List Nat
  chunk_count : Nat
deriving DecidableEq

/-- The mutable state of the `RAGSystem`: `metadata` (documents, chunks,
`next_chunk_id`), the FAISS `IndexFlatIP` (a row-indexed sequence of
vectors, where `add` appends and `ntotal` is the length — modelled from
the spec's Vector Index contract), and the id-keyed storage directories.
The Python chunks map is keyed by `str(chunk_id)`; since `str` is
injective on ids, the model keys it by the id itself. -/
structure RAGState where
  documents : List (String × DocMeta)
  chunks : List (Nat × ChunkMeta)
  next_chunk_id : Nat
  index : List Vec
  chunkFiles : List (Nat × List Char)
  embeddingFiles : List (Nat × Vec)
  documentFiles : List (String × List Char)
deriving DecidableEq

/-- The state of a freshly created storage directory
(`{"documents": {}, "chunks": {}, "next_chunk_id": 0}` and an empty
index). -/
def initialState : RAGState := ⟨[], [], 0, [], [], [], []⟩

/-! ### upload_pdf -/

/-- Result of `upload_pdf`: the success dict carries `document_id` and
`chunks_created`; every error dict is collapsed to its message. -/
inductive UploadResult
  | ok (document_id : String) (chunks_created : Nat)
  | err (msg : String)
deriving DecidableEq

/-- The chunk metadata record written for the `i`-th chunk of document
`doc_id` (mcp_server.py lines 122-127): the preview is the chunk text,
truncated to 100 characters plus an ellipsis when longer. -/
def chunkMetaOf (doc_id : String) (i : Nat) (chunk : List Char) : ChunkMeta :=
  { document_id := doc_id, chunk_index := i,
    text_preview :=
      if chunk.length > 100 then chunk.take 100 ++ "...".data else chunk }

/-- State after one fully successful iteration of the per-chunk loop of
`upload_pdf` (mcp_server.py lines 103-129): the id counter advanced, the
chunk text file written, the vector appended to the index, the embedding
file saved, and the chunk metadata recorded under the fresh id. -/
def ingestStepState (doc_id : String) (i : Nat) (chunk : List Char)
    (v : Vec) (st : RAGState) : RAGState :=
  { st with
      next_chunk_id := st.next_chunk_id + 1,
      chunkFiles := dictSet st.chunkFiles st.next_chunk_id chunk,
      index := st.index ++ [v],
      embeddingFiles := dictSet st.embeddingFiles st.next_chunk_id v,
      chunks := dictSet st.chunks st.next_chunk_id (chunkMetaOf doc_id i chunk) }

/-- The per-chunk processing loop of `upload_pdf` (mcp_server.py lines
103-129).  For each chunk in order: take `next_chunk_id` and increment it,
write the chunk text file, embed the chunk (`none` models an exception
raised by the embedding call: the loop stops there, and the mutations made
so far — including the current iteration's counter increment and chunk
file write, which in the source precede the embedding call — remain,
since Python mutates `rag_system` in place), then append the vector to
the index, save the embedding file, record the chunk metadata, and
collect the chunk id. -/
def processChunks (embed : List Char → Option Vec) (doc_id : String) :
    List (List Char) → Nat → RAGState → List Nat →
    Option (List Nat) × RAGState
  | [], _, st, ids => (some ids, st)
  | chunk :: rest, i, st, ids =>
    match embed chunk with
    | none =>
      (none, { st with next_chunk_id := st.next_chunk_id + 1,
                       chunkFiles := dictSet st.chunkFiles st.next_chunk_id chunk })
    | some v =>
      processChunks embed doc_id rest (i + 1)
        (ingestStepState doc_id i chunk v st) (ids ++ [st.next_chunk_id])

/-- State after `upload_pdf` has written the extracted text to the
documents directory (mcp_server.py lines 94-97), before chunk
processing. -/
def uploadStartState (docId : String → String) (st : RAGState)
    (file_path : String) (text_content : List Char) : RAGState :=
  { st with documentFiles :=
      dictSet st.documentFiles (docId file_path) text_content }

/-- Model of `upload_pdf` (mcp_server.py lines 75-153) from the point
where the file-existence and `.pdf`-suffix checks have passed and
`_extract_pdf_text` has produced `text_content`.  `docId` models
`hashlib.md5(str(file_path).encode()).hexdigest()` — a pure function of
the path string alone; `Path.stem` for the default document name is
modelled as the path string.  The `none` branch of the chunker is
unreachable at the default parameters (`createTextChunksDefault_total`
below); it is reported as an error so the model stays total. -/
def upload_pdf (docId : String → String) (embed : List Char → Option Vec)
    (st : RAGState) (file_path : String) (document_name : Option String)
    (text_content : List Char) : UploadResult × RAGState :=
  if (pyStrip text_content).isEmpty then
    (.err "No text content found in PDF", st)
  else
    match createTextChunksDefault text_content with
    | none =>
      (.err "chunking does not terminate",
        uploadStartState docId st file_path text_content)
    | some chunks =>
      match processChunks embed (docId file_path) chunks 0
        (uploadStartState docId st file_path text_content) [] with
      | (none, st') => (.err "Failed to process PDF", st')
      | (some chunk_ids, st') =>
        (.ok (docId file_path) chunks.length,
          { st' with documents := (
              dictSet st'.documents (docId file_path)
                (DocMeta.mk (document_name.getD file_path) file_path chunk_ids
                  chunks.length)) })

/-! ### search_documents -/

/-- Exact inner product of two vectors. -/
def ip (a b : Vec) : Int := (a.zip b).foldl (fun s p => s + p.1 * p.2) 0

/-- Ranking order of the Vector Index: strictly higher score first, ties
broken by ascending row id. -/
def searchRel (a b : Nat × Int) : Prop :=
  b.2 < a.2 ∨ (a.2 = b.2 ∧ a.1 ≤ b.1)

instance : DecidableRel searchRel := fun a b => by
  unfold searchRel; infer_instance

instance : IsTotal (Nat × Int) searchRel := by
  constructor; intro a b; unfold searchRel; omega

instance : IsTrans (Nat × Int) searchRel := by
  constructor; intro a b c; unfold searchRel; omega

/-- Modelled from the spec: `faiss.IndexFlatIP.search` — exact top-`k`
inner-product search over all rows, returning `(row_id, score)` pairs
ordered by descending score with ties broken by ascending row id
(spec section 4.3; the FAISS library itself is an external collaborator,
not part of this repository).  With `k ≤ ntotal` the flat index returns
no invalid `-1` slots, so the source's `idx == -1` skip has no model. -/
def faissSearch (index : List Vec) (q : Vec) (k : Nat) : List (Nat × Int) :=
  (List.insertionSort searchRel
    (index.enum.map (fun p => (p.1, ip q p.2)))).take k

/-- One entry of a successful search result (mcp_server.py lines 183-190). -/
structure SearchHit where
  chunk_id : Nat
  score : Int
  text : List Char
  document_name : String
  document_id : Option String
  chunk_index : Option Nat
deriving DecidableEq

/-- Result of `search_documents`. -/
inductive SearchResult
  | ok (results : List SearchHit)
  | err (msg : String)
deriving DecidableEq

/-- The result record assembled for one returned row (mcp_server.py lines
179-190): chunk text from the chunk file, metadata joins with `.get`
defaults (`"Unknown"` name, `None` fields when the chunk metadata entry is
missing). -/
def hitOf (st : RAGState) (p : Nat × Int) : SearchHit :=
  { chunk_id := p.1, score := p.2,
    text := (dictGet st.chunkFiles p.1).getD [],
    document_name := (((dictGet st.chunks p.1).map
      (fun c => c.document_id)).bind
        (fun d => (dictGet st.documents d).map (fun dm => dm.name))).getD
      "Unknown",
    document_id := (dictGet st.chunks p.1).map (fun c => c.document_id),
    chunk_index := (dictGet st.chunks p.1).map (fun c => c.chunk_index) }

/-- The result list of a successful search: the index's ranked
`(row_id, score)` pairs, keeping only rows whose chunk file exists
(the loop's `if chunk_file.exists()` skip), each joined into a result
record. -/
def searchHitsOf (st : RAGState) (q : Vec) (top_k : Nat) : List SearchHit :=
  ((faissSearch st.index q (min top_k st.index.length)).filter
    (fun p => (dictGet st.chunkFiles p.1).isSome)).map (hitOf st)

/-- Model of `search_documents` (mcp_server.py lines 156-200): reject an
empty index, embed the query (`none` models a raised exception, caught at
the operation boundary), run the index search with `min(top_k, ntotal)`,
and join each returned row against the chunk file store and the metadata
maps, skipping rows whose chunk file does not exist.  The state is only
read, never written. -/
def search_documents (embed : List Char → Option Vec) (st : RAGState)
    (query : List Char) (top_k : Nat) : SearchResult :=
  if st.index.length = 0 then
    .err "No documents in the system. Please upload some PDFs first."
  else
    match embed query with
    | none => .err "Search failed"
    | some q => .ok (searchHitsOf st q top_k)

/-! ### delete_document -/

/-- Result of `delete_document`. -/
inductive DeleteResult
  | ok (msg : String)
  | err (msg : String)
deriving DecidableEq

/-- The per-chunk deletion loop of `delete_document` (mcp_server.py lines
235-246): for each listed chunk id, unlink the chunk text file and the
embedding file and delete the chunk metadata entry. -/
def deleteChunksState (st : RAGState) (ks : List Nat) : RAGState :=
  ks.foldl
    (fun s cid =>
      { s with chunkFiles := dictErase s.chunkFiles cid,
               embeddingFiles := dictErase s.embeddingFiles cid,
               chunks := dictErase s.chunks cid }) st

/-- The index rebuild of `delete_document` (mcp_server.py lines 256-262):
starting from a fresh empty `IndexFlatIP`, iterate the remaining chunks
map in insertion order and `add` (append) each chunk's stored embedding,
when its embedding file exists. -/
def rebuildIndex (ef : List (Nat × Vec)) (cl : List (Nat × ChunkMeta)) :
    List Vec :=
  cl.foldl
    (fun ix p =>
      match dictGet ef p.1 with
      | some v => ix ++ [v]
      | none => ix) []

/-- The state produced by a successful `delete_document`: chunk artifacts
and metadata of the listed chunk ids removed, the document file and record
removed, and the index rebuilt from the surviving chunks map. -/
def deleteFinalState (st : RAGState) (document_id : String)
    (info : DocMeta) : RAGState :=
  { documents := dictErase (deleteChunksState st info.chunk_ids).documents
      document_id,
    chunks := (deleteChunksState st info.chunk_ids).chunks,
    next_chunk_id := (deleteChunksState st info.chunk_ids).next_chunk_id,
    index := rebuildIndex (deleteChunksState st info.chunk_ids).embeddingFiles
      (deleteChunksState st info.chunk_ids).chunks,
    chunkFiles := (deleteChunksState st info.chunk_ids).chunkFiles,
    embeddingFiles := (deleteChunksState st info.chunk_ids).embeddingFiles,
    documentFiles := dictErase
      (deleteChunksState st info.chunk_ids).documentFiles document_id }

/-- Model of `delete_document` (mcp_server.py lines 225-274): error if the
document id is unknown; otherwise delete each listed chunk's text file,
embedding file and metadata entry, delete the document file and record,
then rebuild the index from scratch by iterating the *remaining* chunks
map in insertion order and appending each stored embedding (the source
re-adds vectors with `index.add`, i.e. at fresh consecutive row
positions). -/
def delete_document (st : RAGState) (document_id : String) :
    DeleteResult × RAGState :=
  match dictGet st.documents document_id with
  | none => (.err ("Document not found: " ++ document_id), st)
  | some info =>
    (.ok ("Successfully deleted document: " ++ info.name),
      deleteFinalState st document_id info)

/-! ### list_documents and get_rag_stats -/

/-- Model of `list_documents` (mcp_server.py lines 202-222): document id,
name and chunk count for each stored document, in map order.  Read-only. -/
def list_documents (st : RAGState) : List (String × String × Nat) :=
  st.documents.map (fun p => (p.1, p.2.name, p.2.chunk_count))

/-- Model of `get_rag_stats` (mcp_server.py lines 276-299): document and
chunk counts (the on-disk byte size is a file-system aggregate, elided).
Read-only. -/
def get_rag_stats (st : RAGState) : Nat × Nat :=
  (st.documents.length, st.chunks.length)

/-! ### The operations as a step relation on states -/

/-- One top-level tool invocation with its arguments. -/
inductive Op
  | upload (file_path : String) (document_name : Option String)
      (text_content : List Char)
  | search (query : List Char) (top_k : Nat)
  | listDocs
  | delete (document_id : String)
  | stats

/-- State transition of one completed operation.  `search_documents`,
`list_documents` and `get_rag_stats` only read `rag_system`, so they are
the identity on state. -/
def applyOp (docId : String → String) (embed : List Char → Option Vec)
    (op : Op) (st : RAGState) : RAGState :=
  match op with
  | .upload p n t => (upload_pdf docId embed st p n t).2
  | .search _ _ => st
  | .listDocs => st
  | .delete d => (delete_document st d).2
  | .stats => st

/-- States reachable from a fresh store by completed operations. -/
inductive Reachable (docId : String → String)
    (embed : List Char → Option Vec) : RAGState → Prop
  | init : Reachable docId embed initialState
  | step {st : RAGState} (op : Op) :
      Reachable docId embed st → Reachable docId embed (applyOp docId embed op st)

/-- Reachable-state invariant tying the index to the chunk map: the index
holds one row per chunk metadata entry, chunk keys are distinct, below the
id counter, and each has a stored embedding file. -/
def StInv (st : RAGState) : Prop :=
  st.index.length = st.chunks.length ∧
  (dKeys st.chunks).Nodup ∧
  (∀ k ∈ dKeys st.chunks, k < st.next_chunk_id) ∧
  (∀ k ∈ dKeys st.chunks, (dictGet st.embeddingFiles k).isSome)

/-! ### Concrete instantiations of the external collaborators, used to
evaluate the model on explicit inputs -/

/-- A concrete stand-in for `hashlib.md5(str(file_path)).hexdigest()`:
like the source's hash, a pure function of the path string alone. -/
def hashPath : String → String := fun s => s

/-- A concrete embedding collaborator that always succeeds (vector is the
singleton holding the chunk length). -/
def embLen : List Char → Option Vec := fun t => some [(t.length : Int)]

/-- A concrete embedding collaborator whose every call raises. -/
def embNone : List Char → Option Vec := fun _ => none

/-- A concrete two-chunk store used to evaluate `search_documents`. -/
def searchDemoState : RAGState :=
  ⟨[], [], 2, [[2], [1]], [(0, "x".data), (1, "y".data)], [], []⟩

/-- Store after ingesting `a.pdf` (text `"A"`, one chunk, id 0) into a
fresh store. -/
def ragS1 : RAGState :=
  (upload_pdf hashPath embLen initialState "a.pdf" none "A".data).2

/-- Store after additionally ingesting the same path `a.pdf` again (text
`"B"`, one chunk, id 1): the path hash is unchanged, so the document
record is overwritten and chunk 0 is orphaned. -/
def ragS2 : RAGState :=
  (upload_pdf hashPath embLen ragS1 "a.pdf" none "B".data).2

/-- Store after ingesting `a.pdf` (chunk 0) and then `b.pdf` (chunk 1). -/
def ragTwoDocs : RAGState :=
  (upload_pdf hashPath embLen ragS1 "b.pdf" none "BB".data).2

/-- Result of deleting `a.pdf` from the two-document store: chunk 0 is
removed and the index is rebuilt from chunk 1's stored vector. -/
def rowBugState : RAGState := (delete_document ragTwoDocs "a.pdf").2

/-- Result of deleting `a.pdf` from the double-ingested store. -/
def orphanDelete : DeleteResult × RAGState := delete_document ragS2 "a.pdf"

/-- Result of a failed ingest (every embedding call raises) from the
fresh store. -/
def failedIngest : UploadResult × RAGState :=
  upload_pdf hashPath embNone initialState "a.pdf" none "A".data

/-! ### Helper lemmas about the dict model -/

lemma dictGet_mapUpdate_self {κ α : Type} [DecidableEq κ]
    (l : List (κ × α)) (k : κ) (v : α) (h : k ∈ dKeys l) :
    dictGet (l.map (fun p => if p.1 = k then (k, v) else p)) k = some v := by
  induction l with
  | nil => simp [dKeys] at h
  | cons p r ih =>
    by_cases hp : p.1 = k
    · simp [dictGet, hp]
    · rw [List.map_cons, if_neg hp, dictGet, if_neg hp]
      rcases List.mem_cons.1 h with h1 | h1
      · exact absurd h1.symm hp
      · exact ih h1

lemma dictGet_mapUpdate_ne {κ α : Type} [DecidableEq κ]
    (l : List (κ × α)) (k k' : κ) (v : α) (h : k' ≠ k) :
    dictGet (l.map (fun p => if p.1 = k then (k, v) else p)) k' = dictGet l k' := by
  induction l with
  | nil => simp
  | cons p r ih =>
    by_cases hp : p.1 = k
    · rw [List.map_cons, if_pos hp, dictGet, dictGet,
        if_neg (fun hh => h hh.symm), if_neg (hp ▸ fun hh => h hh.symm)]
      exact ih
    · rw [List.map_cons, if_neg hp, dictGet, dictGet]
      split
      · rfl
      · exact ih

lemma dictGet_append_single_ne {κ α : Type} [DecidableEq κ]
    (l : List (κ × α)) (k k' : κ) (v : α) (h : k' ≠ k) :
    dictGet (l ++ [(k, v)]) k' = dictGet l k' := by
  induction l with
  | nil =>
    simp only [List.nil_append, dictGet, if_neg (fun hh : k = k' => h hh.symm)]
  | cons p r ih =>
    rw [List.cons_append, dictGet, dictGet]
    split
    · rfl
    · exact ih

lemma dictGet_append_single_self {κ α : Type} [DecidableEq κ]
    (l : List (κ × α)) (k : κ) (v : α) (h : k ∉ dKeys l) :
    dictGet (l ++ [(k, v)]) k = some v := by
  induction l with
  | nil => simp [dictGet]
  | cons p r ih =>
    rw [List.cons_append, dictGet]
    rw [dKeys, List.map_cons, List.mem_cons] at h
    push_neg at h
    rw [if_neg (fun hh => h.1 hh.symm)]
    exact ih h.2

lemma any_key_iff {κ α : Type} [DecidableEq κ] (l : List (κ × α)) (k : κ) :
    (l.any fun p => decide (p.1 = k)) = true ↔ k ∈ dKeys l := by
  rw [List.any_eq_true]
  constructor
  · rintro ⟨p, hp, hpk⟩
    exact List.mem_map.2 ⟨p, hp, of_decide_eq_true hpk⟩
  · intro h
    rcases List.mem_map.1 h with ⟨p, hp, hpk⟩
    exact ⟨p, hp, decide_eq_true hpk⟩

lemma dictGet_dictSet_self {κ α : Type} [DecidableEq κ]
    (l : List (κ × α)) (k : κ) (v : α) :
    dictGet (dictSet l k v) k = some v := by
  unfold dictSet
  split
  · exact dictGet_mapUpdate_self l k v ((any_key_iff l k).1 ‹_›)
  · exact dictGet_append_single_self l k v
      (fun hm => ‹¬_› ((any_key_iff l k).2 hm))

lemma dictGet_dictSet_ne {κ α : Type} [DecidableEq κ]
    (l : List (κ × α)) (k k' : κ) (v : α) (h : k' ≠ k) :
    dictGet (dictSet l k v) k' = dictGet l k' := by
  unfold dictSet
  split
  · exact dictGet_mapUpdate_ne l k k' v h
  · exact dictGet_append_single_ne l k k' v h

lemma mem_dKeys_mapUpdate {κ α : Type} [DecidableEq κ] (k k' : κ) (v : α) :
    ∀ l : List (κ × α),
      k' ∈ dKeys (l.map (fun p => if p.1 = k then (k, v) else p)) →
      k' ∈ dKeys l ∨ k' = k := by
  intro l
  induction l with
  | nil => intro h; simp [dKeys] at h
  | cons p r ih =>
    intro h
    simp only [dKeys, List.map_cons] at h ⊢
    by_cases hp : p.1 = k
    · rw [if_pos hp] at h
      rcases List.mem_cons.1 h with h1 | h1
      · right; exact h1
      · rcases ih h1 with h2 | h2
        · left; exact List.mem_cons.2 (Or.inr h2)
        · right; exact h2
    · rw [if_neg hp] at h
      rcases List.mem_cons.1 h with h1 | h1
      · left; exact h1 ▸ List.mem_cons.2 (Or.inl rfl)
      · rcases ih h1 with h2 | h2
        · left; exact List.mem_cons.2 (Or.inr h2)
        · right; exact h2

lemma mem_dKeys_dictSet {κ α : Type} [DecidableEq κ]
    (l : List (κ × α)) (k k' : κ) (v : α)
    (h : k' ∈ dKeys (dictSet l k v)) : k' ∈ dKeys l ∨ k' = k := by
  unfold dictSet at h
  split at h
  · exact mem_dKeys_mapUpdate k k' v l h
  · unfold dKeys at *
    rw [List.map_append] at h
    rcases List.mem_append.1 h with h1 | h1
    · left; exact h1
    · right; simpa using h1

lemma dictGet_eq_none_iff {κ α : Type} [DecidableEq κ]
    (l : List (κ × α)) (k : κ) :
    dictGet l k = none ↔ k ∉ dKeys l := by
  induction l with
  | nil => simp [dictGet, dKeys]
  | cons p r ih =>
    rw [dictGet, dKeys, List.map_cons]
    by_cases hp : p.1 = k
    · simp [hp]
    · rw [if_neg hp]
      simp only [List.mem_cons]
      constructor
      · intro h hmem
        rcases hmem with h1 | h1
        · exact hp h1.symm
        · exact (ih.1 h) h1
      · intro h
        exact ih.2 (fun hm => h (Or.inr hm))

lemma dictGet_isSome_iff {κ α : Type} [DecidableEq κ]
    (l : List (κ × α)) (k : κ) :
    (dictGet l k).isSome ↔ k ∈ dKeys l := by
  rcases h : dictGet l k with _ | v
  · simp [(dictGet_eq_none_iff l k).1 h]
  · simp only [Option.isSome_some, true_iff]
    by_contra hk
    rw [(dictGet_eq_none_iff l k).2 hk] at h
    cases h

lemma dictSet_length_of_not_mem {κ α : Type} [DecidableEq κ]
    (l : List (κ × α)) (k : κ) (v : α) (h : k ∉ dKeys l) :
    (dictSet l k v).length = l.length + 1 := by
  unfold dictSet
  rw [if_neg, List.length_append, List.length_cons, List.length_nil]
  intro hany
  rcases List.any_eq_true.1 hany with ⟨p, hp, hpk⟩
  exact h (List.mem_map.2 ⟨p, hp, of_decide_eq_true hpk⟩)

lemma dKeys_dictSet_of_not_mem {κ α : Type} [DecidableEq κ]
    (l : List (κ × α)) (k : κ) (v : α) (h : k ∉ dKeys l) :
    dKeys (dictSet l k v) = dKeys l ++ [k] := by
  unfold dictSet
  rw [if_neg, dKeys, List.map_append]
  · rfl
  · intro hany
    rcases List.any_eq_true.1 hany with ⟨p, hp, hpk⟩
    exact h (List.mem_map.2 ⟨p, hp, of_decide_eq_true hpk⟩)

lemma dictGet_singleton_inv {κ α : Type} [DecidableEq κ] {a : κ} {b : α}
    {k : κ} {c : α} (h : dictGet [(a, b)] k = some c) : k = a ∧ c = b := by
  rw [dictGet] at h
  by_cases hk : a = k
  · rw [if_pos hk] at h
    cases h
    exact ⟨hk.symm, rfl⟩
  · rw [if_neg hk] at h
    cases h

/-! ### Chunker lemmas -/

lemma chunkStep_default_advance (text : List Char) (start : Int) :
    start + 502 ≤ (chunkStep text 1000 start).2 := by
  simp only [chunkStep]
  split
  · split
    · rename_i hbp
      simp only
      omega
    · simp only
      omega
  · simp only
    omega

lemma chunkLoop_default_total (text : List Char) :
    ∀ (fuel : Nat) (start : Int) (acc : List (List Char)),
      (text.length : Int) ≤ start + 302 * fuel →
      ∃ l, chunkLoop text 1000 200 fuel start acc = some l := by
  intro fuel
  induction fuel with
  | zero =>
    intro start acc h
    rw [chunkLoop, if_neg (by omega)]
    exact ⟨acc, rfl⟩
  | succ f ih =>
    intro start acc h
    rw [chunkLoop]
    by_cases hs : start < (text.length : Int)
    · rw [if_pos hs]
      apply ih
      have := chunkStep_default_advance text start
      omega
    · rw [if_neg hs]
      exact ⟨acc, rfl⟩

lemma createTextChunksDefault_total (text : List Char) :
    ∃ l, createTextChunksDefault text = some l := by
  unfold createTextChunksDefault create_text_chunks
  obtain ⟨l, hl⟩ := chunkLoop_default_total text (text.length + 1) 0 []
    (by push_cast; nlinarith)
  rw [hl]
  exact ⟨_, rfl⟩

lemma mem_dropWhile_of_not {p : Char → Bool} {c : Char} :
    ∀ {s : List Char}, c ∈ s → p c = false → c ∈ s.dropWhile p := by
  intro s
  induction s with
  | nil => intro h _; simp at h
  | cons x t ih =>
    intro hc hp
    by_cases hx : p x = true
    · rw [List.dropWhile_cons_of_pos hx]
      rcases List.mem_cons.1 hc with h1 | h1
      · rw [h1] at hp; rw [hp] at hx; cases hx
      · exact ih h1 hp
    · rw [List.dropWhile_cons_of_neg hx]
      exact hc

lemma mem_pyStrip {c : Char} {s : List Char}
    (hc : c ∈ s) (hp : isPySpace c = false) : c ∈ pyStrip s := by
  unfold pyStrip
  rw [List.mem_reverse]
  apply mem_dropWhile_of_not _ hp
  rw [List.mem_reverse]
  exact mem_dropWhile_of_not hc hp

lemma pySlice_zero_of_le (s : List Char) (b : Int)
    (h : (s.length : Int) ≤ b) : pySlice s 0 b = s := by
  unfold pySlice sliceIdx
  rw [if_neg (by omega), if_neg (by omega)]
  have h1 : (0 : Int).toNat = 0 := rfl
  have h2 : min b.toNat s.length = s.length := by omega
  rw [h1, h2]
  simp

lemma chunkStep_no_adjust (text : List Char) (cs : Nat) (start : Int)
    (h : ¬(start + (cs : Int) < (text.length : Int))) :
    chunkStep text cs start = (pySlice text start (start + cs), start + cs) := by
  simp only [chunkStep]
  rw [if_neg h]

lemma chunkLoop_short_text (text : List Char) (cs ov : Nat)
    (hlen : text.length < cs) (hov : ov < cs) :
    ∀ (fuel : Nat) (start : Int) (acc : List (List Char)),
      1 ≤ start → (text.length : Int) ≤ start + fuel →
      ∃ rest, chunkLoop text cs ov fuel start acc = some (acc ++ rest) := by
  intro fuel
  induction fuel with
  | zero =>
    intro start acc h1 h2
    rw [chunkLoop, if_neg (by omega)]
    exact ⟨[], by simp⟩
  | succ f ih =>
    intro start acc h1 h2
    by_cases hs : start < (text.length : Int)
    · rw [chunkLoop, if_pos hs,
        chunkStep_no_adjust text cs start (by omega)]
      obtain ⟨rest, hrest⟩ := ih (start + (cs : Int) - (ov : Int))
        (acc ++ [pyStrip (pySlice text start (start + cs))]) (by omega) (by omega)
      refine ⟨[pyStrip (pySlice text start (start + cs))] ++ rest, ?_⟩
      rw [← List.append_assoc]
      exact hrest
    · rw [chunkLoop, if_neg hs]
      exact ⟨[], by simp⟩

/-- C4 counterexample: a single space is a non-empty text of length less
than the default `chunk_size = 1000`, yet `_create_text_chunks` returns no
chunks at all (the lone chunk is whitespace-only and is dropped by the
final filter). -/
theorem create_text_chunks_whitespace_counterexample :
    createTextChunksDefault [' '] = some [] ∧ [' '] ≠ [] ∧ [' '].length < 1000 := by
  refine ⟨by decide, by decide, by decide⟩

/-- C4 (amended): for any text containing at least one non-whitespace
character, of length less than `chunk_size`, and with
`overlap < chunk_size` (so that the scan terminates), `_create_text_chunks`
returns at least one chunk. -/
theorem create_text_chunks_nonempty (text : List Char) (cs ov : Nat)
    (c : Char) (hc : c ∈ text) (hcs : isPySpace c = false)
    (hlen : text.length < cs) (hov : ov < cs) :
    ∃ l, create_text_chunks text cs ov (text.length + 1) = some l ∧ l ≠ [] := by
  have hlen1 : 1 ≤ text.length := List.length_pos.2 (by rintro rfl; simp at hc)
  unfold create_text_chunks
  rw [chunkLoop, if_pos (by omega),
    chunkStep_no_adjust text cs 0 (by omega)]
  rw [show (0 : Int) + (cs : Int) = (cs : Int) by omega,
    pySlice_zero_of_le text cs (by omega)]
  obtain ⟨rest, hrest⟩ := chunkLoop_short_text text cs ov hlen hov
    text.length ((cs : Int) - (ov : Int)) ([] ++ [pyStrip text])
    (by omega) (by omega)
  rw [hrest]
  simp only [Option.map_some, List.nil_append]
  refine ⟨_, rfl, ?_⟩
  have hmem : c ∈ pyStrip (pyStrip text) :=
    mem_pyStrip (mem_pyStrip hc hcs) hcs
  have hne : (pyStrip (pyStrip text)).isEmpty = false := by
    cases hstrip : pyStrip (pyStrip text) with
    | nil => rw [hstrip] at hmem; simp at hmem
    | cons a b => simp
  intro habs
  simp only [List.singleton_append] at habs
  have : pyStrip text ∈ (pyStrip text :: rest).filter
      (fun ch => !(pyStrip ch).isEmpty) :=
    List.mem_filter.2 ⟨List.mem_cons.2 (Or.inl rfl), by rw [hne]; rfl⟩
  rw [habs] at this
  simp at this

/-- C4 witness for the amended theorem at a concrete input. -/
theorem create_text_chunks_nonempty_witness :
    ('H' ∈ "Hi".data ∧ isPySpace 'H' = false ∧
      "Hi".data.length < 10 ∧ 3 < 10) ∧
    ∃ l, create_text_chunks "Hi".data 10 3 ("Hi".data.length + 1) = some l ∧
      l ≠ [] :=
  ⟨by decide, create_text_chunks_nonempty "Hi".data 10 3 'H'
    (by decide) (by decide) (by decide) (by decide)⟩

/-- C3: the scanning loop of `_create_text_chunks` never terminates when
`overlap = chunk_size`: on the text of ten `'a'`s with
`chunk_size = overlap = 5`, the window start stays at `0` forever, so for
every fuel bound the loop is still running (`none`).  The source has
neither a strict-advance guard nor a parameter-validity check. -/
theorem chunker_loops_forever_on_overlap_eq_chunk_size :
    ∀ (fuel : Nat) (acc : List (List Char)),
      chunkLoop (List.replicate 10 'a') 5 5 fuel 0 acc = none := by
  intro fuel
  induction fuel with
  | zero =>
    intro acc
    rw [chunkLoop, if_pos (by simp)]
  | succ f ih =>
    intro acc
    rw [chunkLoop, if_pos (by simp),
      show chunkStep (List.replicate 10 'a') 5 0 = (List.replicate 5 'a', 5)
        from by decide]
    rw [show ((List.replicate 5 'a', (5 : Int)).2 - ((5 : Nat) : Int)) = 0
        from by norm_num]
    exact ih _

/-! ### Lemmas about the ingest loop -/

lemma ingestStepState_next (d : String) (i : Nat) (chunk : List Char)
    (v : Vec) (st : RAGState) :
    (ingestStepState d i chunk v st).next_chunk_id = st.next_chunk_id + 1 := rfl

lemma processChunks_cons_none (embed : List Char → Option Vec) (d : String)
    (chunk : List Char) (rest : List (List Char)) (i : Nat) (st : RAGState)
    (ids : List Nat) (hemb : embed chunk = none) :
    processChunks embed d (chunk :: rest) i st ids =
      (none, { st with next_chunk_id := st.next_chunk_id + 1,
                       chunkFiles := dictSet st.chunkFiles st.next_chunk_id chunk }) := by
  rw [processChunks, hemb]

lemma processChunks_cons_some (embed : List Char → Option Vec) (d : String)
    (chunk : List Char) (rest : List (List Char)) (i : Nat) (st : RAGState)
    (ids : List Nat) (v : Vec) (hemb : embed chunk = some v) :
    processChunks embed d (chunk :: rest) i st ids =
      processChunks embed d rest (i + 1) (ingestStepState d i chunk v st)
        (ids ++ [st.next_chunk_id]) := by
  rw [processChunks, hemb]

lemma processChunks_basic (embed : List Char → Option Vec) (d : String) :
    ∀ (chunks : List (List Char)) (i : Nat) (st : RAGState) (ids : List Nat),
      (processChunks embed d chunks i st ids).2.documents = st.documents ∧
      (processChunks embed d chunks i st ids).2.documentFiles = st.documentFiles ∧
      st.next_chunk_id ≤ (processChunks embed d chunks i st ids).2.next_chunk_id ∧
      ∃ tail, (processChunks embed d chunks i st ids).2.index = st.index ++ tail := by
  intro chunks
  induction chunks with
  | nil =>
    intro i st ids
    exact ⟨rfl, rfl, le_refl _, [], by simp [processChunks]⟩
  | cons chunk rest ih =>
    intro i st ids
    cases hemb : embed chunk with
    | none =>
      rw [processChunks_cons_none embed d chunk rest i st ids hemb]
      exact ⟨rfl, rfl, by simp, [], by simp⟩
    | some v =>
      rw [processChunks_cons_some embed d chunk rest i st ids v hemb]
      obtain ⟨h1, h2, h3, tail, h4⟩ :=
        ih (i + 1) (ingestStepState d i chunk v st) (ids ++ [st.next_chunk_id])
      rw [ingestStepState_next] at h3
      refine ⟨h1, h2, by omega, [v] ++ tail, ?_⟩
      rw [h4]
      show st.index ++ [v] ++ tail = st.index ++ ([v] ++ tail)
      simp

lemma ingestStepState_keyBound (d : String) (i : Nat) (chunk : List Char)
    (v : Vec) (st : RAGState)
    (hb : ∀ k ∈ dKeys st.chunks, k < st.next_chunk_id) :
    ∀ k ∈ dKeys (ingestStepState d i chunk v st).chunks,
      k < (ingestStepState d i chunk v st).next_chunk_id := by
  intro k hk
  simp only [ingestStepState] at hk ⊢
  rcases mem_dKeys_dictSet _ _ _ _ hk with h1 | h1
  · exact lt_trans (hb k h1) (Nat.lt_succ_self _)
  · omega

lemma processChunks_keys (embed : List Char → Option Vec) (d : String) :
    ∀ (chunks : List (List Char)) (i : Nat) (st : RAGState) (ids : List Nat),
      ∀ k ∈ dKeys (processChunks embed d chunks i st ids).2.chunks,
        k ∈ dKeys st.chunks ∨
        (st.next_chunk_id ≤ k ∧
          k < (processChunks embed d chunks i st ids).2.next_chunk_id) := by
  intro chunks
  induction chunks with
  | nil =>
    intro i st ids k hk
    exact Or.inl (by simpa [processChunks] using hk)
  | cons chunk rest ih =>
    intro i st ids k hk
    cases hemb : embed chunk with
    | none =>
      rw [processChunks_cons_none embed d chunk rest i st ids hemb] at hk ⊢
      exact Or.inl hk
    | some v =>
      rw [processChunks_cons_some embed d chunk rest i st ids v hemb] at hk ⊢
      obtain ⟨-, -, hmono, -⟩ := processChunks_basic embed d rest (i + 1)
        (ingestStepState d i chunk v st) (ids ++ [st.next_chunk_id])
      rw [ingestStepState_next] at hmono
      rcases ih (i + 1) (ingestStepState d i chunk v st)
          (ids ++ [st.next_chunk_id]) k hk with h1 | h1
      · replace h1 : k ∈ dKeys (dictSet st.chunks st.next_chunk_id
            (chunkMetaOf d i chunk)) := h1
        rcases mem_dKeys_dictSet _ _ _ _ h1 with h2 | h2
        · exact Or.inl h2
        · exact Or.inr ⟨le_of_eq h2.symm, by omega⟩
      · rw [ingestStepState_next] at h1
        exact Or.inr ⟨by omega, h1.2⟩

lemma processChunks_preserve (embed : List Char → Option Vec) (d : String) :
    ∀ (chunks : List (List Char)) (i : Nat) (st : RAGState) (ids : List Nat),
      (∀ k ∈ dKeys st.chunks, k < st.next_chunk_id) →
      (∀ (k : Nat) (c : ChunkMeta), dictGet st.chunks k = some c →
        dictGet (processChunks embed d chunks i st ids).2.chunks k = some c) ∧
      (∀ k ∈ dKeys (processChunks embed d chunks i st ids).2.chunks,
        k < (processChunks embed d chunks i st ids).2.next_chunk_id) := by
  intro chunks
  induction chunks with
  | nil =>
    intro i st ids hb
    exact ⟨fun k c h => by simpa [processChunks] using h,
      by simpa [processChunks] using hb⟩
  | cons chunk rest ih =>
    intro i st ids hb
    cases hemb : embed chunk with
    | none =>
      rw [processChunks_cons_none embed d chunk rest i st ids hemb]
      exact ⟨fun k c h => h,
        fun k hk => lt_trans (hb k hk) (Nat.lt_succ_self _)⟩
    | some v =>
      rw [processChunks_cons_some embed d chunk rest i st ids v hemb]
      have hfresh : st.next_chunk_id ∉ dKeys st.chunks :=
        fun hmem => lt_irrefl _ (hb _ hmem)
      obtain ⟨hpres, hbnd⟩ := ih (i + 1) (ingestStepState d i chunk v st)
        (ids ++ [st.next_chunk_id])
        (ingestStepState_keyBound d i chunk v st hb)
      refine ⟨fun k c h => ?_, hbnd⟩
      apply hpres
      show dictGet (dictSet st.chunks st.next_chunk_id (chunkMetaOf d i chunk)) k
        = some c
      rw [dictGet_dictSet_ne]
      · exact h
      · intro hkk
        apply hfresh
        rw [← hkk]
        exact (dictGet_isSome_iff st.chunks k).1 (by rw [h]; rfl)

lemma processChunks_new (embed : List Char → Option Vec) (d : String) :
    ∀ (chunks : List (List Char)) (i : Nat) (st : RAGState) (ids : List Nat),
      (∀ k ∈ dKeys st.chunks, k < st.next_chunk_id) →
      ∀ (k : Nat) (c : ChunkMeta),
        dictGet (processChunks embed d chunks i st ids).2.chunks k = some c →
        dictGet st.chunks k = none → c.document_id = d := by
  intro chunks
  induction chunks with
  | nil =>
    intro i st ids _ k c h1 h2
    simp only [processChunks] at h1
    rw [h2] at h1
    cases h1
  | cons chunk rest ih =>
    intro i st ids hb k c h1 h2
    cases hemb : embed chunk with
    | none =>
      rw [processChunks_cons_none embed d chunk rest i st ids hemb] at h1
      replace h1 : dictGet st.chunks k = some c := h1
      rw [h2] at h1
      cases h1
    | some v =>
      rw [processChunks_cons_some embed d chunk rest i st ids v hemb] at h1
      by_cases hk : k = st.next_chunk_id
      · have hself : dictGet (ingestStepState d i chunk v st).chunks
            st.next_chunk_id = some (chunkMetaOf d i chunk) :=
          dictGet_dictSet_self st.chunks st.next_chunk_id (chunkMetaOf d i chunk)
        have hgot := (processChunks_preserve embed d rest (i + 1)
          (ingestStepState d i chunk v st) (ids ++ [st.next_chunk_id])
          (ingestStepState_keyBound d i chunk v st hb)).1 st.next_chunk_id _ hself
        rw [hk, hgot] at h1
        cases h1
        rfl
      · apply ih (i + 1) (ingestStepState d i chunk v st)
          (ids ++ [st.next_chunk_id])
          (ingestStepState_keyBound d i chunk v st hb) k c h1
        show dictGet (dictSet st.chunks st.next_chunk_id (chunkMetaOf d i chunk)) k
          = none
        rw [dictGet_dictSet_ne _ _ _ _ hk]
        exact h2

lemma processChunks_ids (embed : List Char → Option Vec) (d : String) :
    ∀ (chunks : List (List Char)) (i : Nat) (st : RAGState)
      (ids ids' : List Nat),
      (processChunks embed d chunks i st ids).1 = some ids' →
      ∃ newIds, ids' = ids ++ newIds ∧ newIds.length = chunks.length ∧
        ∀ k ∈ newIds, st.next_chunk_id ≤ k ∧
          k < (processChunks embed d chunks i st ids).2.next_chunk_id := by
  intro chunks
  induction chunks with
  | nil =>
    intro i st ids ids' h
    simp only [processChunks] at h ⊢
    cases h
    exact ⟨[], by simp⟩
  | cons chunk rest ih =>
    intro i st ids ids' h
    cases hemb : embed chunk with
    | none =>
      rw [processChunks_cons_none embed d chunk rest i st ids hemb] at h
      exact Option.noConfusion h
    | some v =>
      rw [processChunks_cons_some embed d chunk rest i st ids v hemb] at h ⊢
      obtain ⟨newIds, hn1, hn2, hn3⟩ := ih (i + 1)
        (ingestStepState d i chunk v st) (ids ++ [st.next_chunk_id]) ids' h
      obtain ⟨-, -, hmono, -⟩ := processChunks_basic embed d rest (i + 1)
        (ingestStepState d i chunk v st) (ids ++ [st.next_chunk_id])
      rw [ingestStepState_next] at hmono
      refine ⟨[st.next_chunk_id] ++ newIds, by rw [hn1]; simp, by simp [hn2], ?_⟩
      intro k hk
      rcases List.mem_append.1 hk with h1 | h1
      · have hkeq : k = st.next_chunk_id := by simpa using h1
        subst hkeq
        exact ⟨le_refl _, by omega⟩
      · obtain ⟨ha, hb⟩ := hn3 k h1
        rw [ingestStepState_next] at ha
        exact ⟨by omega, hb⟩

lemma processChunks_inv (embed : List Char → Option Vec) (d : String) :
    ∀ (chunks : List (List Char)) (i : Nat) (st : RAGState) (ids : List Nat),
      StInv st → StInv (processChunks embed d chunks i st ids).2 := by
  intro chunks
  induction chunks with
  | nil =>
    intro i st ids h
    simpa [processChunks] using h
  | cons chunk rest ih =>
    intro i st ids h
    obtain ⟨hlen, hnd, hbnd, hembf⟩ := h
    cases hemb : embed chunk with
    | none =>
      rw [processChunks_cons_none embed d chunk rest i st ids hemb]
      refine ⟨hlen, hnd, fun k hk => ?_, hembf⟩
      exact lt_trans (hbnd k hk) (Nat.lt_succ_self _)
    | some v =>
      rw [processChunks_cons_some embed d chunk rest i st ids v hemb]
      apply ih
      have hfresh : st.next_chunk_id ∉ dKeys st.chunks :=
        fun hmem => lt_irrefl _ (hbnd _ hmem)
      have hkeys := dKeys_dictSet_of_not_mem st.chunks st.next_chunk_id
        (chunkMetaOf d i chunk) hfresh
      refine ⟨?_, ?_, ?_, ?_⟩
      · show (st.index ++ [v]).length =
          (dictSet st.chunks st.next_chunk_id (chunkMetaOf d i chunk)).length
        rw [dictSet_length_of_not_mem _ _ _ hfresh, List.length_append,
          List.length_cons, List.length_nil, hlen]
      · show (dKeys (dictSet st.chunks st.next_chunk_id
          (chunkMetaOf d i chunk))).Nodup
        rw [hkeys]
        simp [List.nodup_append, hnd, hfresh]
      · show ∀ k ∈ dKeys (dictSet st.chunks st.next_chunk_id
          (chunkMetaOf d i chunk)), k < st.next_chunk_id + 1
        rw [hkeys]
        intro k hk
        rcases List.mem_append.1 hk with h1 | h1
        · exact lt_trans (hbnd k h1) (Nat.lt_succ_self _)
        · simp at h1
          omega
      · show ∀ k ∈ dKeys (dictSet st.chunks st.next_chunk_id
          (chunkMetaOf d i chunk)),
          (dictGet (dictSet st.embeddingFiles st.next_chunk_id v) k).isSome
        rw [hkeys]
        intro k hk
        rcases List.mem_append.1 hk with h1 | h1
        · have hne : k ≠ st.next_chunk_id := fun he => hfresh (he ▸ h1)
          rw [dictGet_dictSet_ne _ _ _ _ hne]
          exact hembf k h1
        · have hke : k = st.next_chunk_id := by simpa using h1
          rw [hke, dictGet_dictSet_self]
          rfl

/-! ### Lemmas about upload_pdf -/

lemma upload_pdf_eq_empty (docId : String → String) (embed : List Char → Option Vec)
    (st : RAGState) (p : String) (n : Option String) (t : List Char)
    (h : (pyStrip t).isEmpty = true) :
    upload_pdf docId embed st p n t = (.err "No text content found in PDF", st) := by
  unfold upload_pdf
  rw [if_pos h]

lemma upload_pdf_eq_noterm (docId : String → String) (embed : List Char → Option Vec)
    (st : RAGState) (p : String) (n : Option String) (t : List Char)
    (h : (pyStrip t).isEmpty = false) (hc : createTextChunksDefault t = none) :
    upload_pdf docId embed st p n t =
      (.err "chunking does not terminate", uploadStartState docId st p t) := by
  unfold upload_pdf
  simp only [h, Bool.false_eq_true, if_false, hc]

lemma upload_pdf_eq_run (docId : String → String) (embed : List Char → Option Vec)
    (st : RAGState) (p : String) (n : Option String) (t : List Char)
    (chunks : List (List Char)) (r : Option (List Nat)) (stp : RAGState)
    (h : (pyStrip t).isEmpty = false)
    (hc : createTextChunksDefault t = some chunks)
    (hpc : processChunks embed (docId p) chunks 0
      (uploadStartState docId st p t) [] = (r, stp)) :
    upload_pdf docId embed st p n t =
      match r with
      | none => (.err "Failed to process PDF", stp)
      | some chunk_ids =>
        (.ok (docId p) chunks.length,
          { stp with documents := (
              dictSet stp.documents (docId p)
                (DocMeta.mk (n.getD p) p chunk_ids chunks.length)) }) := by
  unfold upload_pdf
  simp only [h, Bool.false_eq_true, if_false, hc, hpc]
  cases r <;> rfl

lemma upload_pdf_err_inv (docId : String → String) (embed : List Char → Option Vec)
    (st : RAGState) (p : String) (n : Option String) (t : List Char)
    (msg : String) (st2 : RAGState)
    (h : upload_pdf docId embed st p n t = (.err msg, st2)) :
    st2.documents = st.documents ∧ st.next_chunk_id ≤ st2.next_chunk_id := by
  cases hstrip : (pyStrip t).isEmpty with
  | true =>
    rw [upload_pdf_eq_empty docId embed st p n t hstrip] at h
    have h2 := congrArg Prod.snd h
    replace h2 : st = st2 := h2
    rw [← h2]
    exact ⟨rfl, le_refl _⟩
  | false =>
    cases hc : createTextChunksDefault t with
    | none =>
      rw [upload_pdf_eq_noterm docId embed st p n t hstrip hc] at h
      have h2 := congrArg Prod.snd h
      replace h2 : uploadStartState docId st p t = st2 := h2
      rw [← h2]
      exact ⟨rfl, le_refl _⟩
    | some chunks =>
      rcases hpc : processChunks embed (docId p) chunks 0
          (uploadStartState docId st p t) [] with ⟨r, stp⟩
      rw [upload_pdf_eq_run docId embed st p n t chunks r stp hstrip hc hpc] at h
      cases r with
      | none =>
        replace h : (UploadResult.err "Failed to process PDF", stp) =
          (UploadResult.err msg, st2) := h
        have h2 := congrArg Prod.snd h
        replace h2 : stp = st2 := h2
        obtain ⟨h1, -, h3, -⟩ := processChunks_basic embed (docId p) chunks 0
          (uploadStartState docId st p t) []
        rw [hpc] at h1 h3
        replace h1 : stp.documents = st.documents := h1
        replace h3 : st.next_chunk_id ≤ stp.next_chunk_id := h3
        rw [← h2]
        exact ⟨h1, h3⟩
      | some ids =>
        exact absurd (congrArg Prod.fst h) (by simp)

lemma upload_pdf_ok_inv (docId : String → String) (embed : List Char → Option Vec)
    (st : RAGState) (p : String) (n : Option String) (t : List Char)
    (d : String) (m : Nat) (st2 : RAGState)
    (h : upload_pdf docId embed st p n t = (.ok d m, st2)) :
    d = docId p ∧
    ∃ chunks ids stp,
      createTextChunksDefault t = some chunks ∧
      processChunks embed (docId p) chunks 0
        (uploadStartState docId st p t) [] = (some ids, stp) ∧
      m = chunks.length ∧ ids.length = chunks.length ∧
      st2 = { stp with documents := (
        dictSet stp.documents (docId p)
          (DocMeta.mk (n.getD p) p ids chunks.length)) } := by
  cases hstrip : (pyStrip t).isEmpty with
  | true =>
    rw [upload_pdf_eq_empty docId embed st p n t hstrip] at h
    exact absurd (congrArg Prod.fst h) (by simp)
  | false =>
    cases hc : createTextChunksDefault t with
    | none =>
      rw [upload_pdf_eq_noterm docId embed st p n t hstrip hc] at h
      exact absurd (congrArg Prod.fst h) (by simp)
    | some chunks =>
      rcases hpc : processChunks embed (docId p) chunks 0
          (uploadStartState docId st p t) [] with ⟨r, stp⟩
      rw [upload_pdf_eq_run docId embed st p n t chunks r stp hstrip hc hpc] at h
      cases r with
      | none =>
        exact absurd (congrArg Prod.fst h) (by simp)
      | some ids =>
        replace h : (UploadResult.ok (docId p) chunks.length,
            ({ stp with documents := (
              dictSet stp.documents (docId p)
                (DocMeta.mk (n.getD p) p ids chunks.length)) } : RAGState)) =
          (UploadResult.ok d m, st2) := h
        have hfst := congrArg Prod.fst h
        have hsnd := congrArg Prod.snd h
        replace hfst : UploadResult.ok (docId p) chunks.length =
          UploadResult.ok d m := hfst
        replace hsnd : ({ stp with documents := (
            dictSet stp.documents (docId p)
              (DocMeta.mk (n.getD p) p ids chunks.length)) } : RAGState) = st2 := hsnd
        obtain ⟨hd, hm⟩ := UploadResult.ok.inj hfst
        obtain ⟨ids2, hids1, hids2, -⟩ := processChunks_ids embed (docId p)
          chunks 0 (uploadStartState docId st p t) [] ids (by rw [hpc])
        refine ⟨hd.symm, chunks, ids, stp, rfl, hpc, hm.symm, ?_, ?_⟩
        · rw [hids1]
          simpa using hids2
        · exact hsnd.symm
  
/-! ### Lemmas about delete_document -/

lemma dictErase_filter_merge {α : Type} (l : List (Nat × α)) (c : Nat)
    (rest : List Nat) :
    (dictErase l c).filter (fun p => decide (p.1 ∉ rest)) =
      l.filter (fun p => decide (p.1 ∉ c :: rest)) := by
  unfold dictErase
  rw [List.filter_filter]
  apply List.filter_congr
  intro p _
  by_cases h1 : p.1 = c <;> by_cases h2 : p.1 ∈ rest <;>
    simp [h1, h2, List.mem_cons]

lemma deleteChunksState_spec (ks : List Nat) :
    ∀ st : RAGState,
      (deleteChunksState st ks).documents = st.documents ∧
      (deleteChunksState st ks).next_chunk_id = st.next_chunk_id ∧
      (deleteChunksState st ks).index = st.index ∧
      (deleteChunksState st ks).documentFiles = st.documentFiles ∧
      (deleteChunksState st ks).chunks =
        st.chunks.filter (fun p => decide (p.1 ∉ ks)) ∧
      (deleteChunksState st ks).embeddingFiles =
        st.embeddingFiles.filter (fun p => decide (p.1 ∉ ks)) ∧
      (deleteChunksState st ks).chunkFiles =
        st.chunkFiles.filter (fun p => decide (p.1 ∉ ks)) := by
  induction ks with
  | nil =>
    intro st
    refine ⟨rfl, rfl, rfl, rfl, ?_, ?_, ?_⟩ <;> simp [deleteChunksState]
  | cons c rest ih =>
    intro st
    have hstep : deleteChunksState st (c :: rest) =
        deleteChunksState
          { st with chunkFiles := dictErase st.chunkFiles c,
                    embeddingFiles := dictErase st.embeddingFiles c,
                    chunks := dictErase st.chunks c } rest := rfl
    rw [hstep]
    obtain ⟨h1, h2, h3, h4, h5, h6, h7⟩ := ih
      { st with chunkFiles := dictErase st.chunkFiles c,
                embeddingFiles := dictErase st.embeddingFiles c,
                chunks := dictErase st.chunks c }
    refine ⟨h1, h2, h3, h4, ?_, ?_, ?_⟩
    · rw [h5]
      exact dictErase_filter_merge st.chunks c rest
    · rw [h6]
      exact dictErase_filter_merge st.embeddingFiles c rest
    · rw [h7]
      exact dictErase_filter_merge st.chunkFiles c rest

lemma dictGet_filter_keys {α : Type} (ks : List Nat) :
    ∀ (l : List (Nat × α)) (k : Nat),
      dictGet (l.filter (fun p => decide (p.1 ∉ ks))) k =
        if k ∈ ks then none else dictGet l k := by
  intro l
  induction l with
  | nil =>
    intro k
    by_cases hk : k ∈ ks <;> simp [dictGet, hk]
  | cons p r ih =>
    intro k
    by_cases hp : p.1 ∈ ks
    · rw [List.filter_cons_of_neg (by simp [hp]), ih]
      by_cases hk : k ∈ ks
      · rw [if_pos hk, if_pos hk]
      · rw [if_neg hk, if_neg hk, dictGet, if_neg]
        intro he
        exact hk (he ▸ hp)
    · rw [List.filter_cons_of_pos (by simp [hp]), dictGet, dictGet]
      by_cases hpk : p.1 = k
      · rw [if_pos hpk, if_pos hpk, if_neg (hpk ▸ hp)]
      · rw [if_neg hpk, if_neg hpk, ih]

lemma rebuildIndex_go_length (ef : List (Nat × Vec)) :
    ∀ (cl : List (Nat × ChunkMeta)) (acc : List Vec),
      (∀ p ∈ cl, (dictGet ef p.1).isSome) →
      (cl.foldl (fun ix p => match dictGet ef p.1 with
        | some v => ix ++ [v]
        | none => ix) acc).length = acc.length + cl.length := by
  intro cl
  induction cl with
  | nil =>
    intro acc _
    simp
  | cons p r ih =>
    intro acc hall
    rw [List.foldl_cons]
    rcases hget : dictGet ef p.1 with _ | v
    · have hmem := hall p (List.mem_cons_self p r)
      rw [hget] at hmem
      cases hmem
    · simp only [hget]
      rw [ih (acc ++ [v]) (fun q hq => hall q (List.mem_cons.2 (Or.inr hq)))]
      rw [List.length_append]
      simp only [List.length_cons, List.length_nil]
      omega

lemma rebuildIndex_length (ef : List (Nat × Vec)) (cl : List (Nat × ChunkMeta))
    (h : ∀ p ∈ cl, (dictGet ef p.1).isSome) :
    (rebuildIndex ef cl).length = cl.length := by
  unfold rebuildIndex
  rw [rebuildIndex_go_length ef cl [] h]
  simp

lemma rebuildIndex_go_rows (ef : List (Nat × Vec)) :
    ∀ (cl : List (Nat × ChunkMeta)) (acc : List Vec) (v : Vec),
      v ∈ cl.foldl (fun ix p => match dictGet ef p.1 with
        | some w => ix ++ [w]
        | none => ix) acc →
      v ∈ acc ∨ ∃ k, k ∈ dKeys cl ∧ dictGet ef k = some v := by
  intro cl
  induction cl with
  | nil =>
    intro acc v hv
    exact Or.inl (by simpa using hv)
  | cons p r ih =>
    intro acc v hv
    rw [List.foldl_cons] at hv
    rcases hget : dictGet ef p.1 with _ | w
    · rw [hget] at hv
      rcases ih acc v hv with h1 | ⟨k, hk1, hk2⟩
      · exact Or.inl h1
      · exact Or.inr ⟨k, List.mem_cons.2 (Or.inr hk1), hk2⟩
    · rw [hget] at hv
      rcases ih (acc ++ [w]) v hv with h1 | ⟨k, hk1, hk2⟩
      · rcases List.mem_append.1 h1 with h2 | h2
        · exact Or.inl h2
        · have hvw : v = w := by simpa using h2
          exact Or.inr ⟨p.1, List.mem_cons.2 (Or.inl rfl), by rw [hget, hvw]⟩
      · exact Or.inr ⟨k, List.mem_cons.2 (Or.inr hk1), hk2⟩

lemma delete_document_eq_notfound (st : RAGState) (d : String)
    (h : dictGet st.documents d = none) :
    delete_document st d = (.err ("Document not found: " ++ d), st) := by
  unfold delete_document
  rw [h]

lemma delete_document_eq_found (st : RAGState) (d : String) (info : DocMeta)
    (h : dictGet st.documents d = some info) :
    delete_document st d =
      (.ok ("Successfully deleted document: " ++ info.name),
        deleteFinalState st d info) := by
  unfold delete_document
  rw [h]

/-! ### Counting and key lemmas for filters -/

lemma mem_dKeys_filter {α : Type} (l : List (Nat × α)) (f : Nat × α → Bool)
    (k : Nat) (h : k ∈ dKeys (l.filter f)) : k ∈ dKeys l := by
  simp only [dKeys] at h ⊢
  rcases List.mem_map.1 h with ⟨p, hp, hpk⟩
  exact List.mem_map.2 ⟨p, List.mem_of_mem_filter hp, hpk⟩

lemma dKeys_filter_key {α : Type} (f : Nat → Bool) :
    ∀ l : List (Nat × α),
      dKeys (l.filter (fun p => f p.1)) = (dKeys l).filter f := by
  intro l
  induction l with
  | nil => rfl
  | cons p r ih =>
    simp only [dKeys, List.map_cons] at ih ⊢
    by_cases hf : f p.1 = true <;> simp [List.filter_cons, hf, ih]

lemma length_filter_split {α : Type} (f : α → Bool) :
    ∀ l : List α,
      (l.filter f).length + (l.filter (fun a => !f a)).length = l.length := by
  intro l
  induction l with
  | nil => rfl
  | cons a r ih =>
    by_cases hf : f a = true
    · rw [List.filter_cons_of_pos hf,
        List.filter_cons_of_neg (by simp [hf])]
      simp only [List.length_cons]
      omega
    · rw [List.filter_cons_of_neg hf,
        List.filter_cons_of_pos (by simp [Bool.not_eq_true] at hf ⊢; simp [hf])]
      simp only [List.length_cons]
      omega

lemma filter_mem_length (ks keys : List Nat)
    (hkeys : keys.Nodup) (hks : ks.Nodup) (hsub : ∀ k ∈ ks, k ∈ keys) :
    (keys.filter (fun k => decide (k ∈ ks))).length = ks.length := by
  have h1 : List.Subperm (keys.filter (fun k => decide (k ∈ ks))) ks := by
    apply List.subperm_of_subset (hkeys.filter _)
    intro a ha
    exact of_decide_eq_true (List.mem_filter.1 ha).2
  have h2 : List.Subperm ks (keys.filter (fun k => decide (k ∈ ks))) := by
    apply List.subperm_of_subset hks
    intro a ha
    exact List.mem_filter.2 ⟨hsub a ha, decide_eq_true ha⟩
  have := h1.length_le
  have := h2.length_le
  omega

/-! ### Invariant preservation -/

lemma uploadStartState_inv (docId : String → String) (st : RAGState)
    (p : String) (t : List Char) (h : StInv st) :
    StInv (uploadStartState docId st p t) := h

lemma upload_inv (docId : String → String) (embed : List Char → Option Vec)
    (st : RAGState) (p : String) (n : Option String) (t : List Char)
    (h : StInv st) : StInv (upload_pdf docId embed st p n t).2 := by
  cases hstrip : (pyStrip t).isEmpty with
  | true =>
    rw [upload_pdf_eq_empty docId embed st p n t hstrip]
    exact h
  | false =>
    cases hc : createTextChunksDefault t with
    | none =>
      rw [upload_pdf_eq_noterm docId embed st p n t hstrip hc]
      exact h
    | some chunks =>
      rcases hpc : processChunks embed (docId p) chunks 0
          (uploadStartState docId st p t) [] with ⟨r, stp⟩
      rw [upload_pdf_eq_run docId embed st p n t chunks r stp hstrip hc hpc]
      have hstp : StInv stp := by
        have hh := processChunks_inv embed (docId p) chunks 0
          (uploadStartState docId st p t) []
          (uploadStartState_inv docId st p t h)
        rw [hpc] at hh
        exact hh
      cases r with
      | none => exact hstp
      | some ids => exact hstp

lemma delete_inv (st : RAGState) (d : String) (h : StInv st) :
    StInv (delete_document st d).2 := by
  rcases hdoc : dictGet st.documents d with _ | info
  · rw [delete_document_eq_notfound st d hdoc]
    exact h
  · rw [delete_document_eq_found st d info hdoc]
    obtain ⟨hlen, hnd, hbnd, hembf⟩ := h
    obtain ⟨h1, h2, h3, h4, h5, h6, h7⟩ :=
      deleteChunksState_spec info.chunk_ids st
    have hsurv : ∀ p ∈ (deleteChunksState st info.chunk_ids).chunks,
        (dictGet (deleteChunksState st info.chunk_ids).embeddingFiles p.1).isSome := by
      intro p hp
      rw [h5] at hp
      rw [h6, dictGet_filter_keys]
      rw [if_neg (of_decide_eq_true (List.mem_filter.1 hp).2)]
      exact hembf p.1 (List.mem_map.2 ⟨p, (List.mem_filter.1 hp).1, rfl⟩)
    refine ⟨?_, ?_, ?_, ?_⟩
    · show (rebuildIndex (deleteChunksState st info.chunk_ids).embeddingFiles
        (deleteChunksState st info.chunk_ids).chunks).length =
        (deleteChunksState st info.chunk_ids).chunks.length
      exact rebuildIndex_length _ _ hsurv
    · show (dKeys (deleteChunksState st info.chunk_ids).chunks).Nodup
      rw [h5]
      exact hnd.sublist ((List.filter_sublist _).map Prod.fst)
    · show ∀ k ∈ dKeys (deleteChunksState st info.chunk_ids).chunks,
        k < (deleteChunksState st info.chunk_ids).next_chunk_id
      intro k hk
      rw [h5] at hk
      rw [h2]
      exact hbnd k (mem_dKeys_filter _ _ _ hk)
    · show ∀ k ∈ dKeys (deleteChunksState st info.chunk_ids).chunks,
        (dictGet (deleteChunksState st info.chunk_ids).embeddingFiles k).isSome
      intro k hk
      simp only [dKeys] at hk
      rcases List.mem_map.1 hk with ⟨p, hp, hpk⟩
      rw [← hpk]
      exact hsurv p hp

lemma applyOp_inv (docId : String → String) (embed : List Char → Option Vec)
    (op : Op) (st : RAGState) (h : StInv st) :
    StInv (applyOp docId embed op st) := by
  cases op with
  | upload p n t => exact upload_inv docId embed st p n t h
  | search q k => exact h
  | listDocs => exact h
  | delete d => exact delete_inv st d h
  | stats => exact h

lemma initialState_inv : StInv initialState := by
  refine ⟨rfl, List.nodup_nil, ?_, ?_⟩ <;> intro k hk <;>
    simp [initialState, dKeys] at hk

lemma reachable_inv (docId : String → String)
    (embed : List Char → Option Vec) (st : RAGState)
    (h : Reachable docId embed st) : StInv st := by
  induction h with
  | init => exact initialState_inv
  | step op hr ih => exact applyOp_inv docId embed op _ ih

/-! ### Claim theorems -/

/-- C5: whenever the store holds zero chunks (the Vector Index is empty),
`search_documents` returns the no-documents error — for every embedding
collaborator, every query and every `top_k` — rather than an empty result
list. -/
theorem search_empty_index_error (embed : List Char → Option Vec)
    (st : RAGState) (q : List Char) (k : Nat) (h : st.index = []) :
    search_documents embed st q k =
      .err "No documents in the system. Please upload some PDFs first." := by
  unfold search_documents
  rw [h]
  rfl

/-- C5 witness: the concrete empty initial store. -/
theorem search_empty_index_error_witness :
    initialState.index = [] ∧
    search_documents embLen initialState "q".data 5 =
      .err "No documents in the system. Please upload some PDFs first." :=
  ⟨rfl, search_empty_index_error embLen initialState "q".data 5 rfl⟩

/-- C2 counterexample: a mid-loop ingest failure (the embedding call for
the first chunk raises) is reported as an error, yet the store is *not*
left unchanged: `next_chunk_id` has advanced from 0 to 1 and the chunk
text file for id 0 has been written.  Ingest is not all-or-nothing. -/
theorem upload_failure_mutates_state :
    failedIngest.1 = .err "Failed to process PDF" ∧
    initialState.next_chunk_id = 0 ∧
    failedIngest.2.next_chunk_id = 1 ∧
    dictGet failedIngest.2.chunkFiles 0 = some "A".data := by
  decide

/-- C2 (amended): on any ingest that reports an error, no document record
is created — the documents map is exactly its pre-call value — so no
document record lacking its full chunk set is ever visible; but the chunk
counter (and the partially processed chunk artifacts) persist, the
counter never moving backwards. -/
theorem upload_failure_no_document_record (docId : String → String)
    (embed : List Char → Option Vec) (st : RAGState) (p : String)
    (n : Option String) (t : List Char) (msg : String) (st2 : RAGState)
    (h : upload_pdf docId embed st p n t = (.err msg, st2)) :
    st2.documents = st.documents ∧ st.next_chunk_id ≤ st2.next_chunk_id :=
  upload_pdf_err_inv docId embed st p n t msg st2 h

/-- C2 witness for the amended theorem at the concrete failed ingest. -/
theorem upload_failure_no_document_record_witness :
    (upload_pdf hashPath embNone initialState "a.pdf" none "A".data =
      (.err "Failed to process PDF", failedIngest.2)) ∧
    failedIngest.2.documents = initialState.documents ∧
    initialState.next_chunk_id ≤ failedIngest.2.next_chunk_id :=
  ⟨by decide, upload_failure_no_document_record hashPath embNone initialState
    "a.pdf" none "A".data "Failed to process PDF" failedIngest.2 (by decide)⟩

/-- C1 (the code violates the claimed invariant): ingest `a.pdf` (one
chunk, id 0, vector `[1]`) and `b.pdf` (one chunk, id 1, vector `[2]`),
then delete the first document.  The deletion succeeds and chunk 1
survives with stored vector `[2]`, but the rebuilt Vector Index holds
exactly one row — row 0 — containing chunk 1's vector: row position 1 no
longer exists, so the surviving chunk's vector is *not* stored at row
position equal to its chunk id.  The rebuild assigns rows by insertion
order of the surviving chunks map, not by original chunk id. -/
theorem delete_document_breaks_row_alignment :
    (delete_document ragTwoDocs "a.pdf").1 =
      .ok "Successfully deleted document: a.pdf" ∧
    dKeys rowBugState.chunks = [1] ∧
    dictGet rowBugState.embeddingFiles 1 = some [2] ∧
    rowBugState.index = [[2]] ∧
    rowBugState.index.length = 1 := by
  decide

/-- C7 counterexample: ingest `a.pdf` twice (the path-derived document id
collides), then delete that document.  The delete succeeds, yet chunk 0 —
whose `document_id` is the deleted document — survives in the chunk
metadata map, because `delete_document` removes only the chunks listed in
the *current* document record (`[1]`), not all chunks referencing the
document id. -/
theorem delete_document_leaves_orphan_chunk :
    orphanDelete.1 = .ok "Successfully deleted document: a.pdf" ∧
    dictGet orphanDelete.2.chunks 0 =
      some (ChunkMeta.mk "a.pdf" 0 "A".data) ∧
    (ChunkMeta.mk "a.pdf" 0 "A".data).document_id = "a.pdf" := by
  decide

/-- C6: a successful `search_documents` returns at most `top_k` results,
at most as many results as the current index row count, and the results
are ordered by non-increasing score with ties broken by ascending row id.
(The index search itself is modelled from the spec's Vector Index
contract, `faissSearch`.) -/
theorem search_results_bounded_sorted (embed : List Char → Option Vec)
    (st : RAGState) (q : List Char) (k : Nat) (hits : List SearchHit)
    (h : search_documents embed st q k = .ok hits) :
    hits.length ≤ k ∧ hits.length ≤ st.index.length ∧
    hits.Pairwise (fun a b => b.score ≤ a.score ∧
      (a.score = b.score → a.chunk_id ≤ b.chunk_id)) := by
  unfold search_documents at h
  by_cases hz : st.index.length = 0
  · rw [if_pos hz] at h
    cases h
  · rw [if_neg hz] at h
    cases hq : embed q with
    | none =>
      rw [hq] at h
      cases h
    | some qv =>
      rw [hq] at h
      have hhits : hits = searchHitsOf st qv k := (SearchResult.ok.inj h).symm
      subst hhits
      have hsortlen : (List.insertionSort searchRel
          (st.index.enum.map (fun p => (p.1, ip qv p.2)))).length =
          st.index.length := by
        rw [(List.perm_insertionSort searchRel _).length_eq,
          List.length_map, List.enum_length]
      have hplen : (faissSearch st.index qv (min k st.index.length)).length =
          min k st.index.length := by
        unfold faissSearch
        rw [List.length_take, hsortlen]
        omega
      have hfillen : ((faissSearch st.index qv
          (min k st.index.length)).filter
            (fun p => (dictGet st.chunkFiles p.1).isSome)).length ≤
          (faissSearch st.index qv (min k st.index.length)).length :=
        List.length_filter_le _ _
      rw [hplen] at hfillen
      have hlen : (searchHitsOf st qv k).length ≤ min k st.index.length := by
        unfold searchHitsOf
        rw [List.length_map]
        exact hfillen
      refine ⟨by omega, by omega, ?_⟩
      unfold searchHitsOf
      rw [List.pairwise_map]
      have hsorted : (faissSearch st.index qv
          (min k st.index.length)).Pairwise searchRel := by
        unfold faissSearch
        exact List.Pairwise.sublist (List.take_sublist _ _)
          (List.sorted_insertionSort searchRel _)
      have hfil : ((faissSearch st.index qv
          (min k st.index.length)).filter
            (fun p => (dictGet st.chunkFiles p.1).isSome)).Pairwise searchRel :=
        List.Pairwise.sublist (List.filter_sublist _) hsorted
      apply List.Pairwise.imp _ hfil
      intro a b hab
      have hsc : ∀ p : Nat × Int, (hitOf st p).score = p.2 := fun p => rfl
      have hid : ∀ p : Nat × Int, (hitOf st p).chunk_id = p.1 := fun p => rfl
      simp only [hsc, hid]
      rcases hab with h1 | ⟨h1, h2⟩
      · exact ⟨le_of_lt h1, fun he => absurd (he ▸ h1) (lt_irrefl _)⟩
      · exact ⟨le_of_eq h1.symm, fun _ => h2⟩

/-- C6 witness: a concrete two-row store where both hits come back,
bounded and sorted. -/
theorem search_results_bounded_sorted_witness :
    (search_documents embLen searchDemoState "q".data 5 =
      .ok (searchHitsOf searchDemoState [1] 5)) ∧
    ((searchHitsOf searchDemoState [1] 5).length ≤ 5 ∧
      (searchHitsOf searchDemoState [1] 5).length ≤
        searchDemoState.index.length ∧
      (searchHitsOf searchDemoState [1] 5).Pairwise
        (fun a b => b.score ≤ a.score ∧
          (a.score = b.score → a.chunk_id ≤ b.chunk_id))) :=
  ⟨by decide, search_results_bounded_sorted embLen searchDemoState
    "q".data 5 (searchHitsOf searchDemoState [1] 5) (by decide)⟩

/-- C7 (amended): provided every chunk whose `document_id` equals `d` is
listed in `d`'s `chunk_ids` — which holds unless the same path was
ingested twice, see the counterexample — and the listed ids are distinct,
present in the chunk map, and counted by `chunk_count`, a
`delete_document d` succeeds and: no chunk with `document_id = d` remains
in the chunk map; every listed chunk id is gone from both the chunk map
and the embedding store; the total chunk count decreases by exactly
`chunk_count`; and every row of the rebuilt index is the stored embedding
of some surviving chunk. -/
theorem delete_document_removes_owned (st : RAGState) (d : String)
    (info : DocMeta)
    (hdoc : dictGet st.documents d = some info)
    (hnodupC : (dKeys st.chunks).Nodup)
    (hnodupI : info.chunk_ids.Nodup)
    (hcount : info.chunk_count = info.chunk_ids.length)
    (howned : ∀ (k : Nat) (c : ChunkMeta), dictGet st.chunks k = some c →
      c.document_id = d → k ∈ info.chunk_ids)
    (hpresent : ∀ k ∈ info.chunk_ids, k ∈ dKeys st.chunks) :
    delete_document st d =
      (.ok ("Successfully deleted document: " ++ info.name),
        deleteFinalState st d info) ∧
    (∀ (k : Nat) (c : ChunkMeta),
      dictGet (deleteFinalState st d info).chunks k = some c →
      c.document_id ≠ d) ∧
    (∀ k ∈ info.chunk_ids,
      dictGet (deleteFinalState st d info).chunks k = none ∧
      dictGet (deleteFinalState st d info).embeddingFiles k = none) ∧
    (deleteFinalState st d info).chunks.length + info.chunk_count =
      st.chunks.length ∧
    (∀ v ∈ (deleteFinalState st d info).index,
      ∃ j, j ∈ dKeys (deleteFinalState st d info).chunks ∧
        dictGet (deleteFinalState st d info).embeddingFiles j = some v) := by
  obtain ⟨h1, h2, h3, h4, h5, h6, h7⟩ := deleteChunksState_spec info.chunk_ids st
  have hchunksF : (deleteFinalState st d info).chunks =
      st.chunks.filter (fun p => decide (p.1 ∉ info.chunk_ids)) := h5
  have hembF : (deleteFinalState st d info).embeddingFiles =
      st.embeddingFiles.filter (fun p => decide (p.1 ∉ info.chunk_ids)) := h6
  refine ⟨delete_document_eq_found st d info hdoc, ?_, ?_, ?_, ?_⟩
  · intro k c hk hd
    rw [hchunksF, dictGet_filter_keys] at hk
    by_cases hmem : k ∈ info.chunk_ids
    · rw [if_pos hmem] at hk
      cases hk
    · rw [if_neg hmem] at hk
      exact hmem (howned k c hk hd)
  · intro k hkmem
    rw [hchunksF, hembF, dictGet_filter_keys, dictGet_filter_keys,
      if_pos hkmem, if_pos hkmem]
    exact ⟨rfl, rfl⟩
  · rw [hchunksF, hcount]
    have hsplit := length_filter_split
      (fun p : Nat × ChunkMeta => decide (p.1 ∉ info.chunk_ids)) st.chunks
    have hcongr : st.chunks.filter
        (fun p => !(decide (p.1 ∉ info.chunk_ids))) =
        st.chunks.filter (fun p => decide (p.1 ∈ info.chunk_ids)) := by
      apply List.filter_congr
      intro p _
      by_cases hp : p.1 ∈ info.chunk_ids <;> simp [hp]
    have hks : (st.chunks.filter
        (fun p => decide (p.1 ∈ info.chunk_ids))).length =
        info.chunk_ids.length := by
      have hkeys := dKeys_filter_key
        (fun j => decide (j ∈ info.chunk_ids)) st.chunks
      have hlenkeys : (st.chunks.filter
          (fun p => decide (p.1 ∈ info.chunk_ids))).length =
          (dKeys (st.chunks.filter
            (fun p => decide (p.1 ∈ info.chunk_ids)))).length := by
        simp [dKeys]
      rw [hlenkeys, hkeys]
      have hlk : ((dKeys st.chunks).filter
          (fun j => decide (j ∈ info.chunk_ids))).length =
          info.chunk_ids.length :=
        filter_mem_length info.chunk_ids (dKeys st.chunks)
          hnodupC hnodupI hpresent
      exact hlk
    rw [hcongr, hks] at hsplit
    omega
  · intro v hv
    have hrows := rebuildIndex_go_rows
      (deleteChunksState st info.chunk_ids).embeddingFiles
      (deleteChunksState st info.chunk_ids).chunks [] v hv
    rcases hrows with h0 | ⟨j, hj1, hj2⟩
    · simp at h0
    · exact ⟨j, hj1, hj2⟩

/-- C7 witness for the amended theorem: the single-document store. -/
theorem delete_document_removes_owned_witness :
    delete_document ragS1 "a.pdf" =
      (.ok ("Successfully deleted document: " ++
          (DocMeta.mk "a.pdf" "a.pdf" [0] 1).name),
        deleteFinalState ragS1 "a.pdf" (DocMeta.mk "a.pdf" "a.pdf" [0] 1)) ∧
    (∀ (k : Nat) (c : ChunkMeta),
      dictGet (deleteFinalState ragS1 "a.pdf"
        (DocMeta.mk "a.pdf" "a.pdf" [0] 1)).chunks k = some c →
      c.document_id ≠ "a.pdf") ∧
    (∀ k ∈ (DocMeta.mk "a.pdf" "a.pdf" [0] 1).chunk_ids,
      dictGet (deleteFinalState ragS1 "a.pdf"
        (DocMeta.mk "a.pdf" "a.pdf" [0] 1)).chunks k = none ∧
      dictGet (deleteFinalState ragS1 "a.pdf"
        (DocMeta.mk "a.pdf" "a.pdf" [0] 1)).embeddingFiles k = none) ∧
    (deleteFinalState ragS1 "a.pdf"
        (DocMeta.mk "a.pdf" "a.pdf" [0] 1)).chunks.length +
      (DocMeta.mk "a.pdf" "a.pdf" [0] 1).chunk_count = ragS1.chunks.length ∧
    (∀ v ∈ (deleteFinalState ragS1 "a.pdf"
        (DocMeta.mk "a.pdf" "a.pdf" [0] 1)).index,
      ∃ j, j ∈ dKeys (deleteFinalState ragS1 "a.pdf"
          (DocMeta.mk "a.pdf" "a.pdf" [0] 1)).chunks ∧
        dictGet (deleteFinalState ragS1 "a.pdf"
          (DocMeta.mk "a.pdf" "a.pdf" [0] 1)).embeddingFiles j = some v) :=
  delete_document_removes_owned ragS1 "a.pdf"
    (DocMeta.mk "a.pdf" "a.pdf" [0] 1) (by decide) (by decide) (by decide)
    (by decide)
    (by
      intro k c hk hd
      have hc : ragS1.chunks = [(0, ChunkMeta.mk "a.pdf" 0 "A".data)] := by
        decide
      rw [hc] at hk
      rcases dictGet_singleton_inv hk with ⟨rfl, rfl⟩
      exact List.mem_cons.2 (Or.inl rfl))
    (by decide)

lemma upload_pdf_keys (docId : String → String)
    (embed : List Char → Option Vec) (st : RAGState) (p : String)
    (n : Option String) (t : List Char) :
    st.next_chunk_id ≤ (upload_pdf docId embed st p n t).2.next_chunk_id ∧
    ∀ k ∈ dKeys (upload_pdf docId embed st p n t).2.chunks,
      k ∈ dKeys st.chunks ∨ (st.next_chunk_id ≤ k ∧
        k < (upload_pdf docId embed st p n t).2.next_chunk_id) := by
  cases hstrip : (pyStrip t).isEmpty with
  | true =>
    rw [upload_pdf_eq_empty docId embed st p n t hstrip]
    exact ⟨le_refl _, fun k hk => Or.inl hk⟩
  | false =>
    cases hc : createTextChunksDefault t with
    | none =>
      rw [upload_pdf_eq_noterm docId embed st p n t hstrip hc]
      exact ⟨le_refl _, fun k hk => Or.inl hk⟩
    | some chunks =>
      rcases hpc : processChunks embed (docId p) chunks 0
          (uploadStartState docId st p t) [] with ⟨r, stp⟩
      rw [upload_pdf_eq_run docId embed st p n t chunks r stp hstrip hc hpc]
      have hkeys := processChunks_keys embed (docId p) chunks 0
        (uploadStartState docId st p t) []
      obtain ⟨-, -, hmono, -⟩ := processChunks_basic embed (docId p) chunks 0
        (uploadStartState docId st p t) []
      rw [hpc] at hkeys hmono
      cases r with
      | none => exact ⟨hmono, hkeys⟩
      | some ids => exact ⟨hmono, hkeys⟩

lemma delete_document_keys (st : RAGState) (d : String) :
    st.next_chunk_id ≤ (delete_document st d).2.next_chunk_id ∧
    ∀ k ∈ dKeys (delete_document st d).2.chunks, k ∈ dKeys st.chunks := by
  rcases hdoc : dictGet st.documents d with _ | info
  · rw [delete_document_eq_notfound st d hdoc]
    exact ⟨le_refl _, fun k hk => hk⟩
  · rw [delete_document_eq_found st d info hdoc]
    obtain ⟨-, h2, -, -, h5, -, -⟩ := deleteChunksState_spec info.chunk_ids st
    constructor
    · show st.next_chunk_id ≤ (deleteChunksState st info.chunk_ids).next_chunk_id
      rw [h2]
    · intro k hk
      replace hk : k ∈ dKeys (deleteChunksState st info.chunk_ids).chunks := hk
      rw [h5] at hk
      exact mem_dKeys_filter _ _ _ hk

/-- C8: across every operation the chunk-id counter never decreases, and
any key of the chunk map after the operation is either an old key or a
fresh id at least the counter's pre-operation value (and below its
post-operation value).  Hence an id assigned once — which is below the
counter from that moment on — is never assigned again, even after its
document is deleted: deletion never decrements or resets the counter. -/
theorem next_chunk_id_monotone_fresh (docId : String → String)
    (embed : List Char → Option Vec) (op : Op) (st : RAGState) :
    st.next_chunk_id ≤ (applyOp docId embed op st).next_chunk_id ∧
    ∀ k ∈ dKeys (applyOp docId embed op st).chunks,
      k ∈ dKeys st.chunks ∨
      (st.next_chunk_id ≤ k ∧
        k < (applyOp docId embed op st).next_chunk_id) := by
  cases op with
  | upload p n t => exact upload_pdf_keys docId embed st p n t
  | search q k => exact ⟨le_refl _, fun k hk => Or.inl hk⟩
  | listDocs => exact ⟨le_refl _, fun k hk => Or.inl hk⟩
  | delete d =>
    obtain ⟨ha, hb⟩ := delete_document_keys st d
    exact ⟨ha, fun k hk => Or.inl (hb k hk)⟩
  | stats => exact ⟨le_refl _, fun k hk => Or.inl hk⟩

/-- C8 witness: a concrete ingest step from the fresh store. -/
theorem next_chunk_id_monotone_fresh_witness :
    initialState.next_chunk_id ≤
      (applyOp hashPath embLen (Op.upload "a.pdf" none "A".data)
        initialState).next_chunk_id ∧
    ∀ k ∈ dKeys (applyOp hashPath embLen (Op.upload "a.pdf" none "A".data)
        initialState).chunks,
      k ∈ dKeys initialState.chunks ∨
      (initialState.next_chunk_id ≤ k ∧
        k < (applyOp hashPath embLen (Op.upload "a.pdf" none "A".data)
          initialState).next_chunk_id) :=
  next_chunk_id_monotone_fresh hashPath embLen
    (Op.upload "a.pdf" none "A".data) initialState

/-- C9: in every store state reachable from the fresh store by completed
operations, the Vector Index row count (`ntotal`) equals the number of
entries in the chunk metadata map. -/
theorem reachable_index_matches_chunks (docId : String → String)
    (embed : List Char → Option Vec) (st : RAGState)
    (h : Reachable docId embed st) :
    st.index.length = st.chunks.length :=
  (reachable_inv docId embed st h).1

/-- C9 witness: the state after one concrete ingest. -/
theorem reachable_index_matches_chunks_witness :
    (applyOp hashPath embLen (Op.upload "a.pdf" none "A".data)
      initialState).index.length =
    (applyOp hashPath embLen (Op.upload "a.pdf" none "A".data)
      initialState).chunks.length :=
  reachable_index_matches_chunks hashPath embLen _
    (Reachable.step (Op.upload "a.pdf" none "A".data) Reachable.init)

/-- C10: the document id is a pure function of the file path alone
(`docId` models the md5 of the path string), so re-ingesting the same
path — with any other text content — produces the same document id; the
second ingest overwrites the document record, whose `chunk_ids` then
reference only the newly assigned chunk ids, while the first ingest's
chunk metadata entries survive unchanged in the chunk map (still
referencing that same document id) and its vectors remain in the
append-only index. -/
theorem upload_same_path_overwrites (docId : String → String)
    (embed : List Char → Option Vec) (st st1 st2 : RAGState) (p : String)
    (n1 n2 : Option String) (t1 t2 : List Char) (d1 d2 : String)
    (m1 m2 : Nat)
    (hreach : Reachable docId embed st)
    (h1 : upload_pdf docId embed st p n1 t1 = (.ok d1 m1, st1))
    (h2 : upload_pdf docId embed st1 p n2 t2 = (.ok d2 m2, st2)) :
    d1 = docId p ∧ d2 = d1 ∧
    (∃ info : DocMeta, dictGet st2.documents d1 = some info ∧
      info.chunk_ids.length = m2 ∧
      ∀ k ∈ info.chunk_ids, st1.next_chunk_id ≤ k) ∧
    (∀ (k : Nat) (c : ChunkMeta), dictGet st1.chunks k = some c →
      dictGet st2.chunks k = some c) ∧
    (∃ tail, st2.index = st1.index ++ tail) ∧
    (∀ (k : Nat) (c : ChunkMeta), dictGet st1.chunks k = some c →
      dictGet st.chunks k = none → c.document_id = d1) := by
  obtain ⟨hd1, chunks1, ids1, stp1, hc1, hpc1, hm1, hlen1, hst1⟩ :=
    upload_pdf_ok_inv docId embed st p n1 t1 d1 m1 st1 h1
  obtain ⟨hd2, chunks2, ids2, stp2, hc2, hpc2, hm2, hlen2, hst2⟩ :=
    upload_pdf_ok_inv docId embed st1 p n2 t2 d2 m2 st2 h2
  have hbound : ∀ k ∈ dKeys st.chunks, k < st.next_chunk_id :=
    (reachable_inv docId embed st hreach).2.2.1
  have hbound1 : ∀ k ∈ dKeys stp1.chunks, k < stp1.next_chunk_id := by
    have hh := (processChunks_preserve embed (docId p) chunks1 0
      (uploadStartState docId st p t1) [] hbound).2
    rw [hpc1] at hh
    exact hh
  have hst1chunks : st1.chunks = stp1.chunks := by rw [hst1]
  have hst1next : st1.next_chunk_id = stp1.next_chunk_id := by rw [hst1]
  have hb1 : ∀ k ∈ dKeys st1.chunks, k < st1.next_chunk_id := by
    rw [hst1chunks, hst1next]
    exact hbound1
  have hpres2 := (processChunks_preserve embed (docId p) chunks2 0
    (uploadStartState docId st1 p t2) [] hb1).1
  rw [hpc2] at hpres2
  have hnew1 := processChunks_new embed (docId p) chunks1 0
    (uploadStartState docId st p t1) [] hbound
  rw [hpc1] at hnew1
  obtain ⟨-, -, -, tail, htail⟩ := processChunks_basic embed (docId p)
    chunks2 0 (uploadStartState docId st1 p t2) []
  rw [hpc2] at htail
  obtain ⟨newIds, hni1, -, hni3⟩ := processChunks_ids embed (docId p)
    chunks2 0 (uploadStartState docId st1 p t2) [] ids2 (by rw [hpc2])
  refine ⟨hd1, hd2.trans hd1.symm, ?_, ?_, ?_, ?_⟩
  · refine ⟨DocMeta.mk (n2.getD p) p ids2 chunks2.length, ?_, ?_, ?_⟩
    · rw [hst2, hd1]
      exact dictGet_dictSet_self _ _ _
    · show ids2.length = m2
      rw [hlen2, hm2]
    · intro k hk
      rw [hni1] at hk
      exact (hni3 k (by simpa using hk)).1
  · intro k c hk
    rw [hst2]
    show dictGet stp2.chunks k = some c
    apply hpres2
    show dictGet st1.chunks k = some c
    exact hk
  · refine ⟨tail, ?_⟩
    rw [hst2]
    show stp2.index = st1.index ++ tail
    exact htail
  · intro k c hk hnone
    rw [hd1]
    apply hnew1 k c
    · show dictGet stp1.chunks k = some c
      rw [← hst1chunks]
      exact hk
    · exact hnone

/-- C10 witness: ingest `a.pdf` with text `"A"`, then again with
different text `"B"`, from the fresh store. -/
theorem upload_same_path_overwrites_witness :
    (upload_pdf hashPath embLen initialState "a.pdf" none "A".data =
      (.ok "a.pdf" 1, ragS1) ∧
      upload_pdf hashPath embLen ragS1 "a.pdf" none "B".data =
      (.ok "a.pdf" 1, ragS2)) ∧
    ("a.pdf" = hashPath "a.pdf" ∧ "a.pdf" = "a.pdf" ∧
      (∃ info : DocMeta, dictGet ragS2.documents "a.pdf" = some info ∧
        info.chunk_ids.length = 1 ∧
        ∀ k ∈ info.chunk_ids, ragS1.next_chunk_id ≤ k) ∧
      (∀ (k : Nat) (c : ChunkMeta), dictGet ragS1.chunks k = some c →
        dictGet ragS2.chunks k = some c) ∧
      (∃ tail, ragS2.index = ragS1.index ++ tail) ∧
      (∀ (k : Nat) (c : ChunkMeta), dictGet ragS1.chunks k = some c →
        dictGet initialState.chunks k = none → c.document_id = "a.pdf")) :=
  ⟨⟨by decide, by decide⟩,
    upload_same_path_overwrites hashPath embLen initialState ragS1 ragS2
      "a.pdf" none none "A".data "B".data "a.pdf" "a.pdf" 1 1
      Reachable.init (by decide) (by decide)⟩

end MCP
